import Mathlib

/-
  Verification of the raglineage core against its specification.

  Shallow embedding of the Python modules:
    raglineage/schemas/lineage_node.py  (SourceRef, LineageNode)
    raglineage/transform/dedupe.py      (DedupeTransform)
    raglineage/transform/chunkers.py    (SimpleChunker)
    raglineage/lineage/diff.py          (compute_diff, VersionDiff)
    raglineage/lineage/graph.py         (LineageGraph)
    raglineage/retrieval/filters.py     (FilterConfig, apply_filters)
    raglineage/retrieval/retriever.py   (Retriever.retrieve)
    raglineage/audit/checks.py          (check_staleness)

  Modelling conventions:
  - Python str is String, Python float scores are ℚ, datetimes are Nat
    timestamps, dict[str, Any] metadata is an association list.
  - A Python function that can raise is Except String; one that can loop
    forever is fuelled and returns Option (none = non-termination).
  - A Python set that is only ever observed through iteration is modelled
    as an insertion-ordered duplicate-free list; every property proved or
    refuted below is invariant under the iteration order of such sets.
-/

namespace RagLineage

/-- Metadata values: the repository only stores strings, ints and bools
    in the `metadata` bag. -/
inductive MetaVal where
  | s (v : String)
  | n (v : Nat)
  | b (v : Bool)
deriving DecidableEq, Repr

/-- The tagged source-reference union of lineage_node.py: FileSource,
    PDFSource, TabularSource, APISource.  Each carries its `type` tag
    implicitly as the constructor. -/
inductive SourceRef where
  | file (uri : String) (line_start line_end : Option Nat)
  | pdf (uri : String) (page : Nat) (sectionName : Option String)
  | tabular (uri : String) (row : Nat) (column : Option String)
  | api (uri : String) (request_id : Option String) (timestamp : Option String)
deriving DecidableEq, Repr

/-- The `uri` field shared by the four source variants. -/
def SourceRef.uri : SourceRef → String
  | .file u _ _ => u
  | .pdf u _ _ => u
  | .tabular u _ _ => u
  | .api u _ _ => u

/-- The literal `type` discriminant of each source variant. -/
def SourceRef.type : SourceRef → String
  | .file _ _ _ => "file"
  | .pdf _ _ _ => "pdf"
  | .tabular _ _ _ => "tabular"
  | .api _ _ _ => "api"

/-- LineageNode of schemas/lineage_node.py. -/
structure LineageNode where
  ln_id : String
  content : String
  source : SourceRef
  dataset_version : String
  transform_chain : List String
  content_hash : String
  created_at : Nat
  updated_at : Option Nat
  metadata : List (String × MetaVal)
deriving DecidableEq, Repr

/-- DedupeTransform.name of transform/dedupe.py. -/
def dedupeName : String := "deduplicate"

/-- DedupeTransform.transform of transform/dedupe.py.  The mutable
    `self.seen_hashes` set is passed explicitly; the result is the new
    state together with the (zero- or one-element) emitted sequence. -/
def dedupeTransform (seen_hashes : List String) (ln : LineageNode) :
    List String × List LineageNode :=
  if ln.content_hash ∈ seen_hashes then
    (seen_hashes, [])
  else
    (ln.content_hash :: seen_hashes,
     [{ ln_id := ln.ln_id
        content := ln.content
        source := ln.source
        dataset_version := ln.dataset_version
        transform_chain := ln.transform_chain ++ [dedupeName]
        content_hash := ln.content_hash
        created_at := ln.created_at
        updated_at := ln.updated_at
        metadata := ln.metadata }])

/-- Feeding a list of records through one deduplicator session, threading
    the `seen_hashes` state, concatenating everything emitted. -/
def dedupeRun (seen : List String) : List LineageNode → List String × List LineageNode
  | [] => (seen, [])
  | ln :: rest =>
    let step := dedupeTransform seen ln
    let tail := dedupeRun step.1 rest
    (tail.1, step.2 ++ tail.2)

/-- C5: within one deduplicator session, a record whose content_hash was
    already seen emits nothing; a record with an unseen hash is emitted
    exactly once, unchanged in every field except the appended stage name
    on its transform_chain; and two records with identical content_hash fed
    through the same session yield exactly one surviving record. -/
theorem dedupe_session_semantics (seen : List String) (ln : LineageNode) :
    (ln.content_hash ∈ seen → dedupeTransform seen ln = (seen, [])) ∧
    (ln.content_hash ∉ seen →
      dedupeTransform seen ln =
        (ln.content_hash :: seen,
         [{ ln with transform_chain := ln.transform_chain ++ [dedupeName] }])) ∧
    (∀ other : LineageNode, other.content_hash = ln.content_hash →
      ((dedupeRun [] [ln, other]).2).length = 1) := by
  refine ⟨fun h => ?_, fun h => ?_, fun other h => ?_⟩
  · simp [dedupeTransform, h]
  · simp [dedupeTransform, h]
  · simp [dedupeRun, dedupeTransform, h]

/-- A concrete record used to instantiate several theorems. -/
def exNode : LineageNode :=
  { ln_id := "ln_1"
    content := "Test"
    source := .file "test.txt" none none
    dataset_version := "v1.0"
    transform_chain := []
    content_hash := "sha256:test"
    created_at := 0
    updated_at := none
    metadata := [] }

theorem dedupe_session_semantics_witness :
    dedupeTransform ["sha256:test"] exNode = (["sha256:test"], []) ∧
    dedupeTransform [] exNode =
      ("sha256:test" :: [], [{ exNode with transform_chain := [dedupeName] }]) ∧
    ((dedupeRun [] [exNode, exNode]).2).length = 1 := by
  refine ⟨?_, ?_, ?_⟩
  · exact (dedupe_session_semantics ["sha256:test"] exNode).1 (by decide)
  · have h := (dedupe_session_semantics [] exNode).2.1 (by decide)
    simpa [exNode] using h
  · exact (dedupe_session_semantics [] exNode).2.2 exNode rfl

/-- FileEntry of schemas/dataset.py. -/
structure FileEntry where
  path : String
  hash : String
  size : Nat
  modified_at : Nat
deriving DecidableEq, Repr

/-- DatasetVersion of schemas/dataset.py. -/
structure DatasetVersion where
  version : String
  created_at : Nat
  files : List FileEntry
deriving DecidableEq, Repr

/-- A Python dict[str, str] as an association list: key order is first
    insertion, value is the last assignment. -/
abbrev Dict := List (String × String)

/-- Inserting a binding into a dict: an existing key keeps its position
    and gets the new value, a new key is appended. -/
def dictInsert (d : Dict) (k v : String) : Dict :=
  if d.any (fun e => e.1 == k) then
    d.map (fun e => if e.1 == k then (k, v) else e)
  else
    d ++ [(k, v)]

/-- The dict comprehension `{f.path: f.hash for f in version.files}`. -/
def filesDict (files : List FileEntry) : Dict :=
  files.foldl (fun d f => dictInsert d f.path f.hash) []

/-- `path in d` for a Python dict. -/
def dictHasKey (d : Dict) (p : String) : Bool :=
  d.any (fun e => e.1 == p)

/-- `d[path]` for a Python dict (None when the key is absent). -/
def dictGet (d : Dict) (p : String) : Option String :=
  (d.find? (fun e => e.1 == p)).map (fun e => e.2)

/-- Iteration order of a Python dict's keys. -/
def dictKeys (d : Dict) : List String :=
  d.map (fun e => e.1)

/-- VersionDiff of lineage/diff.py (the four file lists plus the two
    version tags). -/
structure VersionDiff where
  version_from : String
  version_to : String
  added_files : List String
  removed_files : List String
  modified_files : List String
  unchanged_files : List String
deriving DecidableEq, Repr

/-- VersionDiff.get_changed_files of lineage/diff.py. -/
def VersionDiff.get_changed_files (d : VersionDiff) : List String :=
  d.added_files ++ d.removed_files ++ d.modified_files

/-- compute_diff of lineage/diff.py. -/
def compute_diff (version_from version_to : DatasetVersion) : VersionDiff :=
  let files_from := filesDict version_from.files
  let files_to := filesDict version_to.files
  { version_from := version_from.version
    version_to := version_to.version
    added_files :=
      (dictKeys files_to).filter (fun path => !(dictHasKey files_from path))
    removed_files :=
      (dictKeys files_from).filter (fun path => !(dictHasKey files_to path))
    modified_files :=
      (dictKeys files_from).filter (fun path =>
        dictHasKey files_to path &&
          !(dictGet files_from path == dictGet files_to path))
    unchanged_files :=
      (dictKeys files_from).filter (fun path =>
        dictHasKey files_to path &&
          (dictGet files_from path == dictGet files_to path)) }

/-- The set of paths of a dataset version's file list. -/
def hasPath (v : DatasetVersion) (p : String) : Prop :=
  p ∈ v.files.map (fun f => f.path)

/-- The hash a version's path→hash dict associates to a path. -/
def hashAt (v : DatasetVersion) (p : String) : Option String :=
  dictGet (filesDict v.files) p

theorem dictInsert_keys_mem (d : Dict) (k v p : String) :
    (p ∈ dictKeys (dictInsert d k v)) ↔ (p ∈ dictKeys d ∨ p = k) := by
  unfold dictInsert
  by_cases h : d.any (fun e => e.1 == k)
  · rw [if_pos h]
    have hfix : ∀ e : String × String,
        (if e.1 == k then ((k, v) : String × String) else e).1 = e.1 := by
      intro e
      by_cases hek : e.1 == k
      · rw [if_pos hek]
        exact (beq_iff_eq.1 hek).symm
      · rw [if_neg hek]
    have hkeys : dictKeys (d.map fun e => if e.1 == k then (k, v) else e) =
        dictKeys d := by
      unfold dictKeys
      rw [List.map_map]
      exact List.map_congr_left fun e _ => hfix e
    rw [hkeys]
    rw [List.any_eq_true] at h
    obtain ⟨e0, he0, hk0⟩ := h
    have hk : k ∈ dictKeys d := by
      unfold dictKeys
      exact List.mem_map.2 ⟨e0, he0, beq_iff_eq.1 hk0⟩
    constructor
    · exact Or.inl
    · rintro (hp | rfl)
      · exact hp
      · exact hk
  · rw [if_neg h]
    unfold dictKeys
    rw [List.map_append, List.mem_append]
    simp


theorem filesDict_keys_mem_aux (files : List FileEntry) (p : String) :
    ∀ d : Dict,
      (p ∈ dictKeys (files.foldl (fun d f => dictInsert d f.path f.hash) d)) ↔
        (p ∈ dictKeys d ∨ p ∈ files.map (fun f => f.path)) := by
  induction files with
  | nil => intro d; simp
  | cons f rest ih =>
    intro d
    simp only [List.foldl_cons, List.map_cons, List.mem_cons]
    rw [ih, dictInsert_keys_mem]
    tauto

/-- Membership in the keys of `filesDict` is membership among the paths. -/
theorem filesDict_keys_mem (files : List FileEntry) (p : String) :
    (p ∈ dictKeys (filesDict files)) ↔ p ∈ files.map (fun f => f.path) := by
  unfold filesDict
  rw [filesDict_keys_mem_aux]
  simp [dictKeys]

theorem dictHasKey_iff (d : Dict) (p : String) :
    dictHasKey d p = true ↔ p ∈ dictKeys d := by
  unfold dictHasKey dictKeys
  rw [List.any_eq_true]
  constructor
  · rintro ⟨e, he, hek⟩
    rw [beq_iff_eq] at hek
    exact List.mem_map.2 ⟨e, he, hek⟩
  · intro hp
    obtain ⟨e, he, hp⟩ := List.mem_map.1 hp
    exact ⟨e, he, beq_iff_eq.2 hp⟩

theorem dictHasKey_eq_false_iff (d : Dict) (p : String) :
    dictHasKey d p = false ↔ ¬ p ∈ dictKeys d := by
  rw [← dictHasKey_iff]
  cases dictHasKey d p <;> simp

/-- C6: compute_diff classifies paths exactly as the spec says — added are
    the target-only paths, removed the source-only paths, modified the
    shared paths with differing hash, unchanged the shared paths with
    identical hash; each path lands in exactly one list, and
    get_changed_files is exactly the union of added, removed and modified. -/
theorem compute_diff_partition (vf vt : DatasetVersion) (p : String) :
    ((p ∈ (compute_diff vf vt).added_files ↔ hasPath vt p ∧ ¬ hasPath vf p) ∧
     (p ∈ (compute_diff vf vt).removed_files ↔ hasPath vf p ∧ ¬ hasPath vt p) ∧
     (p ∈ (compute_diff vf vt).modified_files ↔
        hasPath vf p ∧ hasPath vt p ∧ hashAt vf p ≠ hashAt vt p) ∧
     (p ∈ (compute_diff vf vt).unchanged_files ↔
        hasPath vf p ∧ hasPath vt p ∧ hashAt vf p = hashAt vt p)) ∧
    (¬ (p ∈ (compute_diff vf vt).added_files ∧
        p ∈ (compute_diff vf vt).removed_files) ∧
     ¬ (p ∈ (compute_diff vf vt).added_files ∧
        p ∈ (compute_diff vf vt).modified_files) ∧
     ¬ (p ∈ (compute_diff vf vt).added_files ∧
        p ∈ (compute_diff vf vt).unchanged_files) ∧
     ¬ (p ∈ (compute_diff vf vt).removed_files ∧
        p ∈ (compute_diff vf vt).modified_files) ∧
     ¬ (p ∈ (compute_diff vf vt).removed_files ∧
        p ∈ (compute_diff vf vt).unchanged_files) ∧
     ¬ (p ∈ (compute_diff vf vt).modified_files ∧
        p ∈ (compute_diff vf vt).unchanged_files)) ∧
    ((hasPath vf p ∨ hasPath vt p) ↔
      (p ∈ (compute_diff vf vt).added_files ∨
       p ∈ (compute_diff vf vt).removed_files ∨
       p ∈ (compute_diff vf vt).modified_files ∨
       p ∈ (compute_diff vf vt).unchanged_files)) ∧
    (p ∈ (compute_diff vf vt).get_changed_files ↔
      (p ∈ (compute_diff vf vt).added_files ∨
       p ∈ (compute_diff vf vt).removed_files ∨
       p ∈ (compute_diff vf vt).modified_files)) := by
  have hmemF : ∀ q : String, (q ∈ dictKeys (filesDict vf.files)) ↔ hasPath vf q :=
    fun q => filesDict_keys_mem vf.files q
  have hmemT : ∀ q : String, (q ∈ dictKeys (filesDict vt.files)) ↔ hasPath vt q :=
    fun q => filesDict_keys_mem vt.files q
  have hadded : p ∈ (compute_diff vf vt).added_files ↔ hasPath vt p ∧ ¬ hasPath vf p := by
    show p ∈ (dictKeys (filesDict vt.files)).filter
        (fun path => !(dictHasKey (filesDict vf.files) path)) ↔ _
    rw [List.mem_filter, Bool.not_eq_true', dictHasKey_eq_false_iff, hmemT, hmemF]
  have hremoved : p ∈ (compute_diff vf vt).removed_files ↔ hasPath vf p ∧ ¬ hasPath vt p := by
    show p ∈ (dictKeys (filesDict vf.files)).filter
        (fun path => !(dictHasKey (filesDict vt.files) path)) ↔ _
    rw [List.mem_filter, Bool.not_eq_true', dictHasKey_eq_false_iff, hmemF, hmemT]
  have hmodified : p ∈ (compute_diff vf vt).modified_files ↔
      hasPath vf p ∧ hasPath vt p ∧ hashAt vf p ≠ hashAt vt p := by
    show p ∈ (dictKeys (filesDict vf.files)).filter
        (fun path => dictHasKey (filesDict vt.files) path &&
          !(dictGet (filesDict vf.files) path == dictGet (filesDict vt.files) path)) ↔ _
    rw [List.mem_filter, Bool.and_eq_true, Bool.not_eq_true', dictHasKey_iff,
      hmemF, hmemT, beq_eq_false_iff_ne]
    exact Iff.rfl
  have hunchanged : p ∈ (compute_diff vf vt).unchanged_files ↔
      hasPath vf p ∧ hasPath vt p ∧ hashAt vf p = hashAt vt p := by
    show p ∈ (dictKeys (filesDict vf.files)).filter
        (fun path => dictHasKey (filesDict vt.files) path &&
          (dictGet (filesDict vf.files) path == dictGet (filesDict vt.files) path)) ↔ _
    rw [List.mem_filter, Bool.and_eq_true, dictHasKey_iff, hmemF, hmemT, beq_iff_eq]
    exact Iff.rfl
  have hchanged : p ∈ (compute_diff vf vt).get_changed_files ↔
      (p ∈ (compute_diff vf vt).added_files ∨
       p ∈ (compute_diff vf vt).removed_files ∨
       p ∈ (compute_diff vf vt).modified_files) := by
    unfold VersionDiff.get_changed_files
    rw [List.mem_append, List.mem_append, or_assoc]
  refine ⟨⟨hadded, hremoved, hmodified, hunchanged⟩, ?_, ?_, hchanged⟩
  · rw [hadded, hremoved, hmodified, hunchanged]
    refine ⟨?_, ?_, ?_, ?_, ?_, ?_⟩ <;> rintro ⟨h1, h2⟩
    · exact h1.2 h2.1
    · exact h1.2 h2.1
    · exact h1.2 h2.1
    · exact h1.2 h2.2.1
    · exact h1.2 h2.2.1
    · exact h1.2.2 h2.2.2
  · classical
    rw [hadded, hremoved, hmodified, hunchanged]
    constructor
    · intro h
      by_cases h1 : hasPath vf p
      · by_cases h2 : hasPath vt p
        · by_cases h3 : hashAt vf p = hashAt vt p
          · exact Or.inr (Or.inr (Or.inr ⟨h1, h2, h3⟩))
          · exact Or.inr (Or.inr (Or.inl ⟨h1, h2, h3⟩))
        · exact Or.inr (Or.inl ⟨h1, h2⟩)
      · cases h with
        | inl h => exact absurd h h1
        | inr h => exact Or.inl ⟨h, h1⟩
    · rintro (h | h | h | h)
      · exact Or.inr h.1
      · exact Or.inl h.1
      · exact Or.inl h.1
      · exact Or.inl h.1

/-- LineageGraph of lineage/graph.py: the networkx DiGraph is modelled as
    the list of node ids (insertion order) and the list of directed edges
    (source, target, edge_type). -/
structure LineageGraph where
  nodes : List String
  edges : List (String × String × String)
deriving DecidableEq, Repr

/-- LineageGraph.add_node: networkx add_node — inserts the id if absent
    (re-adding only overwrites the attributes, which the node list does
    not carry). -/
def LineageGraph.add_node (g : LineageGraph) (ln : LineageNode) : LineageGraph :=
  { nodes := if ln.ln_id ∈ g.nodes then g.nodes else g.nodes ++ [ln.ln_id]
    edges := g.edges }

/-- networkx DiGraph.add_edge: a duplicate (source, target) pair keeps its
    position and gets the new edge_type, a new pair is appended. -/
def addDirectedEdge (edges : List (String × String × String))
    (s t ty : String) : List (String × String × String) :=
  if edges.any (fun e => e.1 == s && e.2.1 == t) then
    edges.map (fun e => if e.1 == s && e.2.1 == t then (s, t, ty) else e)
  else
    edges ++ [(s, t, ty)]

/-- LineageGraph.add_edge of lineage/graph.py: raises ValueError when an
    endpoint is absent, otherwise inserts the typed edge. -/
def LineageGraph.add_edge (g : LineageGraph) (source_id target_id edge_type : String) :
    Except String LineageGraph :=
  if source_id ∉ g.nodes then
    .error ("Source node not found: " ++ source_id)
  else if target_id ∉ g.nodes then
    .error ("Target node not found: " ++ target_id)
  else
    .ok { nodes := g.nodes
          edges := addDirectedEdge g.edges source_id target_id edge_type }

/-- Every stored edge references node ids present in the graph. -/
def edgesValid (g : LineageGraph) : Prop :=
  ∀ e ∈ g.edges, e.1 ∈ g.nodes ∧ e.2.1 ∈ g.nodes

theorem hasEdgeKey_addDirectedEdge (edges : List (String × String × String))
    (s t ty s' t' : String) :
    (∃ ty', (s', t', ty') ∈ addDirectedEdge edges s t ty) ↔
      ((∃ ty', (s', t', ty') ∈ edges) ∨ (s' = s ∧ t' = t)) := by
  unfold addDirectedEdge
  by_cases h : edges.any (fun e => e.1 == s && e.2.1 == t)
  · rw [if_pos h]
    rw [List.any_eq_true] at h
    obtain ⟨e0, he0, hk0⟩ := h
    rw [Bool.and_eq_true, beq_iff_eq, beq_iff_eq] at hk0
    constructor
    · rintro ⟨ty', hmem⟩
      obtain ⟨e, he, heq⟩ := List.mem_map.1 hmem
      by_cases hek : e.1 == s && e.2.1 == t
      · rw [if_pos hek] at heq
        right
        exact ⟨(congrArg Prod.fst heq).symm, (congrArg (fun p => p.2.1) heq).symm⟩
      · rw [if_neg hek] at heq
        left
        exact ⟨ty', heq ▸ he⟩
    · rintro (⟨ty', hmem⟩ | ⟨rfl, rfl⟩)
      · by_cases hek : s' = s ∧ t' = t
        · refine ⟨ty, List.mem_map.2 ⟨(s', t', ty'), hmem, ?_⟩⟩
          rw [if_pos (by rw [Bool.and_eq_true, beq_iff_eq, beq_iff_eq]; exact hek)]
          rw [hek.1, hek.2]
        · refine ⟨ty', List.mem_map.2 ⟨(s', t', ty'), hmem, ?_⟩⟩
          rw [if_neg (by rw [Bool.and_eq_true, beq_iff_eq, beq_iff_eq]; exact hek)]
      · refine ⟨ty, List.mem_map.2 ⟨e0, he0, ?_⟩⟩
        rw [if_pos (by rw [Bool.and_eq_true, beq_iff_eq, beq_iff_eq]; exact hk0)]
  · rw [if_neg h]
    constructor
    · rintro ⟨ty', hmem⟩
      rcases List.mem_append.1 hmem with hmem | hmem
      · exact Or.inl ⟨ty', hmem⟩
      · rcases List.mem_singleton.1 hmem with heq
        right
        exact ⟨congrArg Prod.fst heq, congrArg (fun p => p.2.1) heq⟩
    · rintro (⟨ty', hmem⟩ | ⟨rfl, rfl⟩)
      · exact ⟨ty', List.mem_append.2 (Or.inl hmem)⟩
      · exact ⟨ty, List.mem_append.2 (Or.inr (List.mem_singleton.2 rfl))⟩

/-- C7: add_edge fails exactly when an endpoint id is absent; on success the
    node set is unchanged, the requested edge is stored, and the invariant
    that every stored edge references present node ids is preserved (also by
    add_node, which never removes nodes). -/
theorem add_edge_iff_endpoints_present (g : LineageGraph) (s t ty : String) :
    ((∃ g', g.add_edge s t ty = .ok g') ↔ (s ∈ g.nodes ∧ t ∈ g.nodes)) ∧
    (∀ g', g.add_edge s t ty = .ok g' →
      g'.nodes = g.nodes ∧ (s, t, ty) ∈ g'.edges ∧
      (edgesValid g → edgesValid g')) ∧
    (∀ ln : LineageNode, edgesValid g → edgesValid (g.add_node ln)) := by
  classical
  refine ⟨?_, ?_, ?_⟩
  · constructor
    · rintro ⟨g', hg'⟩
      unfold LineageGraph.add_edge at hg'
      by_cases hs : s ∈ g.nodes
      · by_cases ht : t ∈ g.nodes
        · exact ⟨hs, ht⟩
        · rw [if_neg (by simpa using hs), if_pos (by simpa using ht)] at hg'
          exact absurd hg' (by simp)
      · rw [if_pos (by simpa using hs)] at hg'
        exact absurd hg' (by simp)
    · rintro ⟨hs, ht⟩
      unfold LineageGraph.add_edge
      rw [if_neg (by simpa using hs), if_neg (by simpa using ht)]
      exact ⟨_, rfl⟩
  · intro g' hg'
    unfold LineageGraph.add_edge at hg'
    by_cases hs : s ∈ g.nodes
    · by_cases ht : t ∈ g.nodes
      · rw [if_neg (by simpa using hs), if_neg (by simpa using ht)] at hg'
        have hg'' : g' = { nodes := g.nodes, edges := addDirectedEdge g.edges s t ty } := by
          cases hg'
          rfl
        subst hg''
        refine ⟨rfl, ?_, ?_⟩
        · have := (hasEdgeKey_addDirectedEdge g.edges s t ty s t).2 (Or.inr ⟨rfl, rfl⟩)
          -- the inserted (or overwritten) key (s, t) now carries type ty
          unfold addDirectedEdge
          by_cases h : g.edges.any (fun e => e.1 == s && e.2.1 == t)
          · rw [if_pos h]
            rw [List.any_eq_true] at h
            obtain ⟨e0, he0, hk0⟩ := h
            exact List.mem_map.2 ⟨e0, he0, by rw [if_pos hk0]⟩
          · rw [if_neg h]
            exact List.mem_append.2 (Or.inr (List.mem_singleton.2 rfl))
        · intro hvalid e he
          show e.1 ∈ g.nodes ∧ e.2.1 ∈ g.nodes
          revert he
          unfold addDirectedEdge
          by_cases h : g.edges.any (fun e => e.1 == s && e.2.1 == t)
          · rw [if_pos h]
            intro he
            obtain ⟨e', he', heq⟩ := List.mem_map.1 he
            by_cases hek : e'.1 == s && e'.2.1 == t
            · rw [if_pos hek] at heq
              rw [← heq]
              exact ⟨hs, ht⟩
            · rw [if_neg hek] at heq
              rw [← heq]
              exact hvalid e' he'
          · rw [if_neg h]
            intro he
            rcases List.mem_append.1 he with he | he
            · exact hvalid e he
            · rw [List.mem_singleton.1 he]
              exact ⟨hs, ht⟩
      · rw [if_neg (by simpa using hs), if_pos (by simpa using ht)] at hg'
        exact absurd hg' (by simp)
    · rw [if_pos (by simpa using hs)] at hg'
      exact absurd hg' (by simp)
  · intro ln hvalid e he
    unfold LineageGraph.add_node
    have := hvalid e he
    by_cases h : ln.ln_id ∈ g.nodes
    · rw [if_pos h]
      exact this
    · rw [if_neg h]
      exact ⟨List.mem_append.2 (Or.inl this.1), List.mem_append.2 (Or.inl this.2)⟩

/-- A small concrete graph for witnesses. -/
def gEx : LineageGraph :=
  { nodes := ["a", "b"], edges := [("a", "b", "adjacent")] }

theorem add_edge_iff_endpoints_present_witness :
    ((gEx.add_edge "b" "a" "semantic").isOk = true) ∧
    (∀ g', gEx.add_edge "b" "a" "semantic" = .ok g' → ("b", "a", "semantic") ∈ g'.edges) := by
  have h := add_edge_iff_endpoints_present gEx "b" "a" "semantic"
  constructor
  · obtain ⟨g', hg'⟩ := h.1.2 ⟨by decide, by decide⟩
    rw [hg']
    rfl
  · intro g' hg'
    exact (h.2.1 g' hg').2.1

/-- Successor ids of a node: targets of edges leaving it. -/
def LineageGraph.succs (g : LineageGraph) (n : String) : Finset String :=
  (g.edges.filterMap (fun e => if e.1 == n then some e.2.1 else none)).toFinset

/-- Predecessor ids of a node: sources of edges entering it. -/
def LineageGraph.preds (g : LineageGraph) (n : String) : Finset String :=
  (g.edges.filterMap (fun e => if e.2.1 == n then some e.1 else none)).toFinset

/-- The mutable triple (neighbors_set, current_level, visited) of
    LineageGraph.neighbors.  The Python sets are modelled as Finsets: every
    update in the loop body is guarded by membership in `visited` and all
    three sets are extended together, so the per-level effect is
    independent of set iteration order. -/
structure BfsState where
  found : Finset String
  current : Finset String
  visited : Finset String

/-- One iteration of the `for _ in range(depth)` loop body: the ids
    reached from the current level through successors or predecessors and
    not yet visited join all three sets. -/
def bfsStep (g : LineageGraph) (st : BfsState) : BfsState :=
  let discovered := (st.current.biUnion fun n => g.succs n ∪ g.preds n) \ st.visited
  { found := st.found ∪ discovered
    current := discovered
    visited := st.visited ∪ discovered }

/-- The bounded loop of LineageGraph.neighbors, including the early
    `break` when the next level is empty. -/
def bfsLoop (g : LineageGraph) (st : BfsState) : Nat → BfsState
  | 0 => st
  | Nat.succ d =>
    let st2 := bfsStep g st
    if st2.current = ∅ then st2 else bfsLoop g st2 d

/-- LineageGraph.neighbors of lineage/graph.py, as the set of ids in the
    returned list (the list materialises a Python set, so only its set of
    elements is specified). -/
def LineageGraph.neighbors (g : LineageGraph) (ln_id : String) (depth : Nat) :
    Finset String :=
  if ln_id ∈ g.nodes then
    (bfsLoop g { found := ∅, current := {ln_id}, visited := {ln_id} } depth).found
  else ∅

theorem bfsStep_found_subset (g : LineageGraph) (st : BfsState) :
    st.found ⊆ (bfsStep g st).found := by
  unfold bfsStep
  exact Finset.subset_union_left

theorem bfsLoop_found_mono (g : LineageGraph) :
    ∀ (d : Nat) (st : BfsState),
      (bfsLoop g st d).found ⊆ (bfsLoop g st (d + 1)).found := by
  intro d
  induction d with
  | zero =>
    intro st
    show st.found ⊆ (bfsLoop g st 1).found
    unfold bfsLoop
    by_cases h : (bfsStep g st).current = ∅
    · rw [if_pos h]
      exact bfsStep_found_subset g st
    · rw [if_neg h]
      show st.found ⊆ (bfsLoop g (bfsStep g st) 0).found
      exact bfsStep_found_subset g st
  | succ d ih =>
    intro st
    show (bfsLoop g st (d + 1)).found ⊆ (bfsLoop g st (d + 2)).found
    unfold bfsLoop
    by_cases h : (bfsStep g st).current = ∅
    · rw [if_pos h, if_pos h]
    · rw [if_neg h, if_neg h]
      exact ih (bfsStep g st)

theorem bfsLoop_start_not_found (g : LineageGraph) (x : String) :
    ∀ (d : Nat) (st : BfsState),
      x ∈ st.visited → x ∉ st.found → x ∉ (bfsLoop g st d).found := by
  intro d
  induction d with
  | zero =>
    intro st _ hnf
    exact hnf
  | succ d ih =>
    intro st hv hnf
    have hv2 : x ∈ (bfsStep g st).visited := by
      unfold bfsStep
      exact Finset.mem_union_left _ hv
    have hnf2 : x ∉ (bfsStep g st).found := by
      unfold bfsStep
      intro hmem
      rcases Finset.mem_union.1 hmem with h | h
      · exact hnf h
      · exact (Finset.mem_sdiff.1 h).2 hv
    unfold bfsLoop
    by_cases h : (bfsStep g st).current = ∅
    · rw [if_pos h]
      exact hnf2
    · rw [if_neg h]
      exact ih (bfsStep g st) hv2 hnf2

/-- C8: neighbors at depth 0 is empty, neighbors of an absent id is empty,
    the start id never appears in its own neighbor set, and the neighbor
    set is monotonically non-decreasing in depth. -/
theorem neighbors_basic_and_monotone (g : LineageGraph) (ln_id : String) :
    (g.neighbors ln_id 0 = ∅) ∧
    (ln_id ∉ g.nodes → ∀ d, g.neighbors ln_id d = ∅) ∧
    (∀ d, ln_id ∉ g.neighbors ln_id d) ∧
    (∀ d, g.neighbors ln_id d ⊆ g.neighbors ln_id (d + 1)) := by
  refine ⟨?_, ?_, ?_, ?_⟩
  · unfold LineageGraph.neighbors
    by_cases h : ln_id ∈ g.nodes
    · rw [if_pos h]
      rfl
    · rw [if_neg h]
  · intro h d
    unfold LineageGraph.neighbors
    rw [if_neg h]
  · intro d
    unfold LineageGraph.neighbors
    by_cases h : ln_id ∈ g.nodes
    · rw [if_pos h]
      exact bfsLoop_start_not_found g ln_id d _
        (Finset.mem_singleton_self ln_id) (Finset.not_mem_empty ln_id)
    · rw [if_neg h]
      exact Finset.not_mem_empty ln_id
  · intro d
    unfold LineageGraph.neighbors
    by_cases h : ln_id ∈ g.nodes
    · rw [if_pos h, if_pos h]
      exact bfsLoop_found_mono g d _
    · rw [if_neg h, if_neg h]

theorem neighbors_basic_and_monotone_witness :
    (gEx.neighbors "a" 0 = ∅) ∧
    (gEx.neighbors "zz" 3 = ∅) ∧
    ("a" ∉ gEx.neighbors "a" 1) ∧
    (gEx.neighbors "a" 1 ⊆ gEx.neighbors "a" 2) := by
  have h := neighbors_basic_and_monotone gEx "a"
  refine ⟨h.1, ?_, h.2.2.1 1, h.2.2.2 1⟩
  exact (neighbors_basic_and_monotone gEx "zz").2.1 (by decide) 3

/-- One entry of the persisted snapshot's edge list; edge_type is optional
    in the JSON and defaults to "semantic" on load. -/
structure GraphSnapshotEdge where
  source : String
  target : String
  edge_type : Option String
deriving DecidableEq, Repr

/-- The persisted graph snapshot shape: node-id keys and the edge list. -/
structure GraphSnapshot where
  nodes : List String
  edges : List GraphSnapshotEdge
deriving DecidableEq, Repr

/-- The node-loading loop of LineageGraph.load_json: ids absent from the
    registry are skipped. -/
def loadNodes (node_registry : String → Option LineageNode) :
    List String → LineageGraph → LineageGraph
  | [], acc => acc
  | i :: rest, acc =>
    match node_registry i with
    | some ln => loadNodes node_registry rest (acc.add_node ln)
    | none => loadNodes node_registry rest acc

/-- The edge-loading loop of LineageGraph.load_json: add_edge is called
    only when both endpoints are in the graph; an uncaught ValueError from
    add_edge would propagate as an error. -/
def loadEdges : List GraphSnapshotEdge → LineageGraph → Except String LineageGraph
  | [], acc => .ok acc
  | e :: rest, acc =>
    if e.source ∈ acc.nodes ∧ e.target ∈ acc.nodes then
      match acc.add_edge e.source e.target (e.edge_type.getD "semantic") with
      | .ok acc2 => loadEdges rest acc2
      | .error msg => .error msg
    else loadEdges rest acc

/-- LineageGraph.load_json of lineage/graph.py: clears the graph (so the
    previous contents `_self` are ignored), loads registered nodes, then
    loads edges whose endpoints were loaded. -/
def LineageGraph.load_json (_self : LineageGraph) (data : GraphSnapshot)
    (node_registry : String → Option LineageNode) : Except String LineageGraph :=
  loadEdges data.edges (loadNodes node_registry data.nodes { nodes := [], edges := [] })

theorem add_node_mem (g : LineageGraph) (ln : LineageNode) (x : String) :
    x ∈ (g.add_node ln).nodes ↔ (x ∈ g.nodes ∨ x = ln.ln_id) := by
  unfold LineageGraph.add_node
  by_cases h : ln.ln_id ∈ g.nodes
  · rw [if_pos h]
    constructor
    · exact Or.inl
    · rintro (hx | rfl)
      · exact hx
      · exact h
  · rw [if_neg h]
    rw [List.mem_append, List.mem_singleton]

theorem loadNodes_edges (registry : String → Option LineageNode) :
    ∀ (l : List String) (acc : LineageGraph),
      (loadNodes registry l acc).edges = acc.edges := by
  intro l
  induction l with
  | nil => intro acc; rfl
  | cons i rest ih =>
    intro acc
    unfold loadNodes
    cases hr : registry i with
    | some ln => exact ih (acc.add_node ln)
    | none => exact ih acc

theorem loadNodes_mem (registry : String → Option LineageNode)
    (hreg : ∀ i ln, registry i = some ln → ln.ln_id = i) :
    ∀ (l : List String) (acc : LineageGraph) (x : String),
      x ∈ (loadNodes registry l acc).nodes ↔
        (x ∈ acc.nodes ∨ (x ∈ l ∧ (registry x).isSome)) := by
  intro l
  induction l with
  | nil =>
    intro acc x
    simp [loadNodes]
  | cons i rest ih =>
    intro acc x
    unfold loadNodes
    cases hr : registry i with
    | some ln =>
      rw [ih (acc.add_node ln) x, add_node_mem, hreg i ln hr]
      constructor
      · rintro ((hx | rfl) | ⟨hx, hs⟩)
        · exact Or.inl hx
        · exact Or.inr ⟨List.mem_cons_self _ _, by rw [hr]; rfl⟩
        · exact Or.inr ⟨List.mem_cons_of_mem _ hx, hs⟩
      · rintro (hx | ⟨hx, hs⟩)
        · exact Or.inl (Or.inl hx)
        · rcases List.mem_cons.1 hx with rfl | hx
          · exact Or.inl (Or.inr rfl)
          · exact Or.inr ⟨hx, hs⟩
    | none =>
      rw [ih acc x]
      constructor
      · rintro (hx | ⟨hx, hs⟩)
        · exact Or.inl hx
        · exact Or.inr ⟨List.mem_cons_of_mem _ hx, hs⟩
      · rintro (hx | ⟨hx, hs⟩)
        · exact Or.inl hx
        · rcases List.mem_cons.1 hx with rfl | hx
          · rw [hr] at hs
            exact absurd hs (by decide)
          · exact Or.inr ⟨hx, hs⟩

theorem loadEdges_ok :
    ∀ (l : List GraphSnapshotEdge) (acc : LineageGraph),
      ∃ gf, loadEdges l acc = .ok gf ∧ gf.nodes = acc.nodes ∧
        (∀ s t, (∃ ty, (s, t, ty) ∈ gf.edges) ↔
          ((∃ ty, (s, t, ty) ∈ acc.edges) ∨
           ∃ e ∈ l, e.source = s ∧ e.target = t ∧
             e.source ∈ acc.nodes ∧ e.target ∈ acc.nodes)) := by
  intro l
  induction l with
  | nil =>
    intro acc
    refine ⟨acc, rfl, rfl, fun s t => ?_⟩
    simp
  | cons e rest ih =>
    intro acc
    unfold loadEdges
    by_cases hguard : e.source ∈ acc.nodes ∧ e.target ∈ acc.nodes
    · rw [if_pos hguard]
      have hok : acc.add_edge e.source e.target (e.edge_type.getD "semantic") =
          .ok { nodes := acc.nodes
                edges := addDirectedEdge acc.edges e.source e.target
                  (e.edge_type.getD "semantic") } := by
        unfold LineageGraph.add_edge
        rw [if_neg (by simpa using hguard.1), if_neg (by simpa using hguard.2)]
      rw [hok]
      obtain ⟨gf, hgf, hnodes, hkeys⟩ :=
        ih { nodes := acc.nodes,
             edges := addDirectedEdge acc.edges e.source e.target
               (e.edge_type.getD "semantic") }
      refine ⟨gf, hgf, hnodes, fun s t => ?_⟩
      rw [hkeys s t]
      constructor
      · rintro (hk | ⟨e', he', h1, h2, h3, h4⟩)
        · rcases (hasEdgeKey_addDirectedEdge acc.edges e.source e.target _ s t).1 hk with
            hk | ⟨rfl, rfl⟩
          · exact Or.inl hk
          · exact Or.inr ⟨e, List.mem_cons_self _ _, rfl, rfl, hguard.1, hguard.2⟩
        · exact Or.inr ⟨e', List.mem_cons_of_mem _ he', h1, h2, h3, h4⟩
      · rintro (hk | ⟨e', he', h1, h2, h3, h4⟩)
        · exact Or.inl ((hasEdgeKey_addDirectedEdge acc.edges e.source e.target _ s t).2
            (Or.inl hk))
        · rcases List.mem_cons.1 he' with rfl | he'
          · exact Or.inl ((hasEdgeKey_addDirectedEdge acc.edges e'.source e'.target _ s t).2
              (Or.inr ⟨h1.symm, h2.symm⟩))
          · exact Or.inr ⟨e', he', h1, h2, h3, h4⟩
    · rw [if_neg hguard]
      obtain ⟨gf, hgf, hnodes, hkeys⟩ := ih acc
      refine ⟨gf, hgf, hnodes, fun s t => ?_⟩
      rw [hkeys s t]
      constructor
      · rintro (hk | ⟨e', he', h1, h2, h3, h4⟩)
        · exact Or.inl hk
        · exact Or.inr ⟨e', List.mem_cons_of_mem _ he', h1, h2, h3, h4⟩
      · rintro (hk | ⟨e', he', h1, h2, h3, h4⟩)
        · exact Or.inl hk
        · rcases List.mem_cons.1 he' with rfl | he'
          · exact absurd ⟨h3, h4⟩ hguard
          · exact Or.inr ⟨e', he', h1, h2, h3, h4⟩

/-- C10: load_json is lenient — it ignores the previous graph contents,
    never returns an error, keeps exactly the snapshot node ids found in
    the registry, and keeps exactly the snapshot edges whose two endpoints
    were loaded, silently dropping the rest (for a registry whose entries
    carry their own key as ln_id). -/
theorem load_json_lenient (g : LineageGraph) (data : GraphSnapshot)
    (registry : String → Option LineageNode) :
    (∀ g₂ : LineageGraph, g.load_json data registry = g₂.load_json data registry) ∧
    (∃ g', g.load_json data registry = .ok g') ∧
    ((∀ i ln, registry i = some ln → ln.ln_id = i) →
      ∀ g', g.load_json data registry = .ok g' →
        (∀ x, x ∈ g'.nodes ↔ (x ∈ data.nodes ∧ (registry x).isSome)) ∧
        (∀ s t, (∃ ty, (s, t, ty) ∈ g'.edges) ↔
          ∃ e ∈ data.edges, e.source = s ∧ e.target = t ∧
            (e.source ∈ data.nodes ∧ (registry e.source).isSome) ∧
            (e.target ∈ data.nodes ∧ (registry e.target).isSome))) := by
  obtain ⟨gf, hgf, hnodes, hkeys⟩ :=
    loadEdges_ok data.edges (loadNodes registry data.nodes { nodes := [], edges := [] })
  refine ⟨fun g₂ => rfl, ⟨gf, hgf⟩, fun hreg g' hg' => ?_⟩
  have hgeq : g' = gf := by
    have : Except.ok (ε := String) gf = .ok g' := by
      rw [← hgf, ← hg']
      rfl
    exact (Except.ok.inj this).symm
  subst hgeq
  have hN : ∀ x, x ∈ (loadNodes registry data.nodes
      { nodes := [], edges := [] } : LineageGraph).nodes ↔
      (x ∈ data.nodes ∧ (registry x).isSome) := by
    intro x
    rw [loadNodes_mem registry hreg data.nodes _ x]
    simp
  constructor
  · intro x
    rw [hnodes] at *
    exact hN x
  · intro s t
    rw [hkeys s t, loadNodes_edges registry data.nodes _]
    constructor
    · rintro (⟨ty, hty⟩ | ⟨e, he, h1, h2, h3, h4⟩)
      · exact absurd hty (List.not_mem_nil _)
      · exact ⟨e, he, h1, h2, (hN e.source).1 h3, (hN e.target).1 h4⟩
    · rintro ⟨e, he, h1, h2, h3, h4⟩
      exact Or.inr ⟨e, he, h1, h2, (hN e.source).2 h3, (hN e.target).2 h4⟩

/-- A concrete snapshot: a registered node, an unregistered node, an edge
    to the unregistered node and a loadable self-edge. -/
def exSnap : GraphSnapshot :=
  { nodes := ["ln_1", "ghost"]
    edges := [{ source := "ln_1", target := "ghost", edge_type := none },
              { source := "ln_1", target := "ln_1", edge_type := some "semantic" }] }

/-- A registry containing only "ln_1". -/
def exRegistry : String → Option LineageNode :=
  fun i => if i = "ln_1" then some exNode else none

/-- The graph load_json produces from exSnap and exRegistry. -/
def gLoadedEx : LineageGraph :=
  { nodes := ["ln_1"], edges := [("ln_1", "ln_1", "semantic")] }

theorem load_json_lenient_witness :
    ("ghost" ∈ gLoadedEx.nodes ↔ ("ghost" ∈ exSnap.nodes ∧ (exRegistry "ghost").isSome)) ∧
    ((∃ ty, ("ln_1", "ghost", ty) ∈ gLoadedEx.edges) ↔
      ∃ e ∈ exSnap.edges, e.source = "ln_1" ∧ e.target = "ghost" ∧
        (e.source ∈ exSnap.nodes ∧ (exRegistry e.source).isSome) ∧
        (e.target ∈ exSnap.nodes ∧ (exRegistry e.target).isSome)) := by
  have hreg : ∀ i ln, exRegistry i = some ln → ln.ln_id = i := by
    intro i ln h
    unfold exRegistry at h
    by_cases hi : i = "ln_1"
    · rw [if_pos hi] at h
      cases h
      rw [hi]
      rfl
    · rw [if_neg hi] at h
      exact absurd h (by simp)
  have h := (load_json_lenient gEx exSnap exRegistry).2.2 hreg gLoadedEx rfl
  exact ⟨h.1 "ghost", h.2 "ln_1" "ghost"⟩

/-- SimpleChunker of transform/chunkers.py: the two stored parameters.
    The Python ints are modelled as Nat; every configuration reached in
    the claims (chunk_size ≥ 0, overlap ≥ 0) is in range. -/
structure SimpleChunker where
  chunk_size : Nat
  overlap : Nat
deriving DecidableEq, Repr

/-- SimpleChunker.__init__: it stores the parameters and contains no
    validation whatsoever, so construction always succeeds.  The Except
    return type expresses where a ConfigurationError could be raised. -/
def SimpleChunker.init (chunk_size overlap : Nat) : Except String SimpleChunker :=
  .ok { chunk_size := chunk_size, overlap := overlap }

/-- The `while start < len(content)` loop of SimpleChunker.chunk, fuelled:
    `none` models non-termination of the Python loop (the loop variable
    moves by chunk_size - overlap per iteration, which is zero when
    overlap ≥ chunk_size). -/
def chunkLoop (cs ov : Nat) (content : List Char) : Nat → Nat → Option (List (List Char))
  | _, 0 => none
  | start, Nat.succ fuel =>
    if start < content.length then
      let piece := (content.drop start).take cs
      let start2 := start + cs - ov
      if content.length ≤ start2 then
        some [piece]
      else
        match chunkLoop cs ov content start2 fuel with
        | some rest => some (piece :: rest)
        | none => none
    else some []

/-- SimpleChunker.chunk of transform/chunkers.py on the character list of
    the content string. -/
def SimpleChunker.chunk (c : SimpleChunker) (content : List Char) :
    Option (List (List Char)) :=
  if content.length ≤ c.chunk_size then some [content]
  else chunkLoop c.chunk_size c.overlap content 0 (content.length + 1)

/-- The three-character content "abc". -/
def exContent3 : List Char := ['a', 'b', 'c']

/-- The five-character content "abcde". -/
def exContent5 : List Char := ['a', 'b', 'c', 'd', 'e']

/-- C3: contrary to the stated failure policy, a chunker with
    chunk_size = 0 (and overlap 0) is accepted at construction — __init__
    performs no validation — and chunking any non-empty content then never
    terminates: the loop exhausts every fuel bound. -/
theorem simpleChunker_zero_size_accepted_diverges :
    (SimpleChunker.init 0 0 = .ok { chunk_size := 0, overlap := 0 }) ∧
    (∀ fuel, chunkLoop 0 0 exContent3 0 fuel = none) ∧
    (SimpleChunker.chunk { chunk_size := 0, overlap := 0 } exContent3 = none) := by
  have hloop : ∀ fuel, chunkLoop 0 0 exContent3 0 fuel = none := by
    intro fuel
    induction fuel with
    | zero => rfl
    | succ n ih =>
      show (if 0 < exContent3.length then _ else _) = none
      rw [if_pos (by decide)]
      show (if exContent3.length ≤ 0 + 0 - 0 then _
            else match chunkLoop 0 0 exContent3 (0 + 0 - 0) n with
                 | some rest => some ((exContent3.drop 0).take 0 :: rest)
                 | none => none) = none
      rw [if_neg (by decide)]
      show (match chunkLoop 0 0 exContent3 0 n with
            | some rest => some ((exContent3.drop 0).take 0 :: rest)
            | none => none) = none
      rw [ih]
  refine ⟨rfl, hloop, ?_⟩
  show (if exContent3.length ≤ 0 then _ else chunkLoop 0 0 exContent3 0 (exContent3.length + 1)) = none
  rw [if_neg (by decide)]
  exact hloop _

theorem chunkLoop_covers (cs ov : Nat) (hov : ov < cs) (content : List Char) :
    ∀ (fuel start : Nat), start < content.length → content.length - start ≤ fuel →
      ∃ chunks, chunkLoop cs ov content start fuel = some chunks ∧
        ∀ i, start ≤ i → i < content.length →
          ∃ s, s ≤ i ∧ i < s + cs ∧ ((content.drop s).take cs ∈ chunks) := by
  intro fuel
  induction fuel with
  | zero =>
    intro start h1 h2
    omega
  | succ n ih =>
    intro start h1 h2
    have hstep : start < start + cs - ov := by omega
    show ∃ chunks, (if start < content.length then _ else _) = some chunks ∧ _
    rw [if_pos h1]
    by_cases hend : content.length ≤ start + cs - ov
    · rw [if_pos hend]
      refine ⟨[(content.drop start).take cs], rfl, ?_⟩
      intro i hsi hil
      exact ⟨start, hsi, by omega, List.mem_singleton.2 rfl⟩
    · rw [if_neg hend]
      obtain ⟨rest, hrest, hcov⟩ := ih (start + cs - ov) (by omega) (by omega)
      rw [hrest]
      refine ⟨(content.drop start).take cs :: rest, rfl, ?_⟩
      intro i hsi hil
      by_cases hic : i < start + cs
      · exact ⟨start, hsi, hic, List.mem_cons_self _ _⟩
      · obtain ⟨s, hs1, hs2, hs3⟩ := hcov i (by omega) hil
        exact ⟨s, hs1, hs2, List.mem_cons_of_mem _ hs3⟩

/-- C4: with 0 < chunk_size and 0 ≤ overlap < chunk_size the simple
    chunker terminates and every character of the input is covered: each
    index lies inside the window of some emitted chunk, and the character
    at that index is an element of that chunk. -/
theorem simpleChunker_covers (c : SimpleChunker) (content : List Char)
    (hcs : 0 < c.chunk_size) (hov : c.overlap < c.chunk_size) :
    ∃ chunks, c.chunk content = some chunks ∧
      ∀ i (hi : i < content.length),
        ∃ s, s ≤ i ∧ i < s + c.chunk_size ∧
          ((content.drop s).take c.chunk_size ∈ chunks) ∧
          content.get ⟨i, hi⟩ ∈ (content.drop s).take c.chunk_size := by
  have hget : ∀ (s i : Nat) (hi : i < content.length), s ≤ i → i < s + c.chunk_size →
      content.get ⟨i, hi⟩ ∈ (content.drop s).take c.chunk_size := by
    intro s i hi hs1 hs2
    have hsome : ((content.drop s).take c.chunk_size).get? (i - s) =
        some (content.get ⟨i, hi⟩) := by
      rw [List.get?_take (by omega : i - s < c.chunk_size)]
      rw [List.get?_drop]
      have hsi : s + (i - s) = i := by omega
      rw [hsi, List.get?_eq_get hi]
    exact List.get?_mem hsome
  unfold SimpleChunker.chunk
  by_cases hlen : content.length ≤ c.chunk_size
  · rw [if_pos hlen]
    refine ⟨[content], rfl, ?_⟩
    intro i hi
    refine ⟨0, Nat.zero_le i, by omega, ?_, hget 0 i hi (Nat.zero_le i) (by omega)⟩
    rw [List.drop_zero, List.take_of_length_le hlen]
    exact List.mem_singleton.2 rfl
  · rw [if_neg hlen]
    push_neg at hlen
    obtain ⟨chunks, hck, hcov⟩ := chunkLoop_covers c.chunk_size c.overlap hov content
      (content.length + 1) 0 (by omega) (by omega)
    refine ⟨chunks, hck, ?_⟩
    intro i hi
    obtain ⟨s, hs1, hs2, hs3⟩ := hcov i (Nat.zero_le i) hi
    exact ⟨s, hs1, hs2, hs3, hget s i hi hs1 hs2⟩

theorem simpleChunker_covers_witness :
    ∃ chunks, SimpleChunker.chunk { chunk_size := 3, overlap := 1 } exContent5 =
        some chunks ∧
      ∃ s, s ≤ 4 ∧ 4 < s + 3 ∧ (exContent5.drop s).take 3 ∈ chunks := by
  obtain ⟨chunks, hck, hcov⟩ :=
    simpleChunker_covers { chunk_size := 3, overlap := 1 } exContent5
      (by decide) (by decide)
  obtain ⟨s, h1, h2, h3, _⟩ := hcov 4 (by decide)
  exact ⟨chunks, hck, s, h1, h2, h3⟩

/-- FilterConfig of retrieval/filters.py.  min_score is a score (ℚ);
    a string filter set to none models Python None, and the empty string
    is falsy in Python, so both disable the corresponding predicate. -/
structure FilterConfig where
  dataset_version : Option String
  source_uri : Option String
  source_type : Option String
  min_score : ℚ

/-- The `if filters.x and actual != filters.x: continue` pattern: the
    predicate only applies when the configured value is truthy. -/
def optFilterOk (configured : Option String) (actual : String) : Bool :=
  match configured with
  | none => true
  | some v => if v = "" then true else actual == v

/-- The per-candidate body of apply_filters of retrieval/filters.py. -/
def passesFilters (filters : FilterConfig) (nodes : String → Option LineageNode)
    (p : String × ℚ) : Bool :=
  if p.2 < filters.min_score then false
  else
    match nodes p.1 with
    | none => false
    | some ln =>
      optFilterOk filters.dataset_version ln.dataset_version &&
        optFilterOk filters.source_uri ln.source.uri &&
        optFilterOk filters.source_type ln.source.type

/-- apply_filters of retrieval/filters.py: keeps candidates in order. -/
def apply_filters (results : List (String × ℚ)) (nodes : String → Option LineageNode)
    (filters : FilterConfig) : List (String × ℚ) :=
  results.filter (passesFilters filters nodes)

/-- Adding an element to a Python set, modelled in insertion order. -/
def setInsert (s : List (String × ℚ)) (x : String × ℚ) : List (String × ℚ) :=
  if x ∈ s then s else s ++ [x]

/-- `set(results)`: fold the list into an insertion-ordered set. -/
def pySetOfList (l : List (String × ℚ)) : List (String × ℚ) :=
  l.foldl setInsert []

/-- Total preorder on candidates: higher score first (the sort key of
    `results.sort(key=lambda x: x[1], reverse=True)`). -/
def scoreGe (a b : String × ℚ) : Prop := b.2 ≤ a.2

instance : DecidableRel scoreGe := fun a b => inferInstanceAs (Decidable (b.2 ≤ a.2))

instance : IsTotal (String × ℚ) scoreGe := ⟨fun a b => le_total b.2 a.2⟩

instance : IsTrans (String × ℚ) scoreGe := ⟨fun _ _ _ h1 h2 => le_trans h2 h1⟩

/-- The stable descending sort of Retriever.retrieve (a stable sort by
    score is unique, so insertion sort is an exact model of list.sort). -/
def sortByScoreDesc (l : List (String × ℚ)) : List (String × ℚ) :=
  l.insertionSort scoreGe

/-- The graph-expansion block of Retriever.retrieve: the expanded set
    starts as set(results); every registered neighbor of a surviving
    candidate is added with the fixed score 0.8. -/
def expandResults (results : List (String × ℚ))
    (neighborsFn : String → Nat → List String)
    (registry : String → Option LineageNode) (graph_depth : Nat) :
    List (String × ℚ) :=
  results.foldl
    (fun acc p =>
      (neighborsFn p.1 graph_depth).foldl
        (fun acc2 neighbor_id =>
          if (registry neighbor_id).isSome then
            setInsert acc2 (neighbor_id, 8/10)
          else acc2)
        acc)
    (pySetOfList results)

/-- Retriever.retrieve of retrieval/retriever.py.  The external embedder
    and vector store are abstracted into searchFn: the list the store
    returns for the requested candidate count (the query embedding is
    fixed by the call); neighborsFn is LineageGraph.neighbors as a list. -/
def retrieve (searchFn : Nat → List (String × ℚ))
    (registry : String → Option LineageNode)
    (neighborsFn : String → Nat → List String)
    (k : Nat) (filters : Option FilterConfig) (graph_depth : Nat) :
    List (String × ℚ) :=
  let results := searchFn (k * 2)
  let results :=
    match filters with
    | some f => apply_filters results registry f
    | none => results
  let results := results.take k
  let results :=
    if 0 < graph_depth then
      (expandResults results neighborsFn registry graph_depth).take k
    else results
  (sortByScoreDesc results).take k

theorem setInsert_nodup (s : List (String × ℚ)) (x : String × ℚ)
    (h : s.Nodup) : (setInsert s x).Nodup := by
  unfold setInsert
  by_cases hx : x ∈ s
  · rw [if_pos hx]
    exact h
  · rw [if_neg hx]
    rw [List.nodup_append]
    refine ⟨h, List.nodup_singleton x, ?_⟩
    intro a ha hb
    rw [List.mem_singleton] at hb
    subst hb
    exact hx ha

theorem pySetOfList_nodup (l : List (String × ℚ)) : (pySetOfList l).Nodup := by
  unfold pySetOfList
  suffices h : ∀ acc : List (String × ℚ), acc.Nodup → (l.foldl setInsert acc).Nodup by
    exact h [] List.nodup_nil
  induction l with
  | nil => intro acc h; exact h
  | cons x rest ih =>
    intro acc h
    exact ih (setInsert acc x) (setInsert_nodup acc x h)

theorem expandResults_nodup (results : List (String × ℚ))
    (neighborsFn : String → Nat → List String)
    (registry : String → Option LineageNode) (graph_depth : Nat) :
    (expandResults results neighborsFn registry graph_depth).Nodup := by
  unfold expandResults
  suffices hinner : ∀ (ids : List String) (acc : List (String × ℚ)), acc.Nodup →
      (ids.foldl (fun acc2 neighbor_id =>
        if (registry neighbor_id).isSome then setInsert acc2 (neighbor_id, 8/10)
        else acc2) acc).Nodup by
    suffices houter : ∀ (ps : List (String × ℚ)) (acc : List (String × ℚ)), acc.Nodup →
        (ps.foldl (fun acc p => (neighborsFn p.1 graph_depth).foldl
          (fun acc2 neighbor_id =>
            if (registry neighbor_id).isSome then setInsert acc2 (neighbor_id, 8/10)
            else acc2) acc) acc).Nodup by
      exact houter results (pySetOfList results) (pySetOfList_nodup results)
    intro ps
    induction ps with
    | nil => intro acc h; exact h
    | cons p rest ih =>
      intro acc h
      exact ih _ (hinner (neighborsFn p.1 graph_depth) acc h)
  intro ids
  induction ids with
  | nil => intro acc h; exact h
  | cons i rest ih =>
    intro acc h
    by_cases hreg : (registry i).isSome
    · refine ih _ ?_
      show (if (registry i).isSome = true then setInsert acc (i, 8/10) else acc).Nodup
      rw [if_pos hreg]
      exact setInsert_nodup acc _ h
    · refine ih _ ?_
      show (if (registry i).isSome = true then setInsert acc (i, 8/10) else acc).Nodup
      rw [if_neg hreg]
      exact h

/-- C2: for every store answer, every k, every filter configuration and
    every graph_depth, retrieve returns at most k results, sorted in
    descending score order. -/
theorem retrieve_length_le_and_sorted (searchFn : Nat → List (String × ℚ))
    (registry : String → Option LineageNode)
    (neighborsFn : String → Nat → List String)
    (k : Nat) (filters : Option FilterConfig) (graph_depth : Nat) :
    (retrieve searchFn registry neighborsFn k filters graph_depth).length ≤ k ∧
    (retrieve searchFn registry neighborsFn k filters graph_depth).Pairwise
      (fun a b => b.2 ≤ a.2) := by
  have hsorted : ∀ l : List (String × ℚ),
      (sortByScoreDesc l).Pairwise (fun a b => b.2 ≤ a.2) := by
    intro l
    exact List.sorted_insertionSort scoreGe l
  constructor
  · show (List.take k (sortByScoreDesc _)).length ≤ k
    rw [List.length_take]
    exact min_le_left _ _
  · show (List.take k (sortByScoreDesc _)).Pairwise _
    exact List.Pairwise.sublist (List.take_sublist _ _) (hsorted _)

/-- C1 counterexample inputs: the store returns a at 0.9 and b at 0.85,
    a and b are graph neighbors of each other, both registered. -/
def cexSearch : Nat → List (String × ℚ) :=
  fun _ => [("a", 9/10), ("b", 17/20)]

/-- Registry holding records a and b. -/
def cexRegistry : String → Option LineageNode :=
  fun i => if i = "a" ∨ i = "b" then some { exNode with ln_id := i } else none

/-- Neighbor relation making a and b mutual neighbors. -/
def cexNeighbors : String → Nat → List String :=
  fun i _ => if i = "a" then ["b"] else if i = "b" then ["a"] else []

/-- C1 is false as stated: with graph expansion active the returned list
    can contain the same id twice (the merge deduplicates by the exact
    (id, score) pair, so an original candidate reappears with neighbor
    score 0.8). -/
theorem retrieve_duplicate_id_cex :
    ¬ (List.Nodup ((retrieve cexSearch cexRegistry cexNeighbors 5 none 1).map
        Prod.fst)) := by
  intro h
  have : (retrieve cexSearch cexRegistry cexNeighbors 5 none 1).map Prod.fst =
      ["a", "b", "b", "a"] := by
    norm_num [retrieve, cexSearch, cexRegistry, cexNeighbors, expandResults,
      pySetOfList, setInsert, sortByScoreDesc]
    simp only [List.foldl_cons, List.foldl_nil, List.mem_cons, List.mem_singleton,
      List.not_mem_nil, Prod.mk.injEq, String.reduceEq, false_and, true_and,
      false_or, or_false, if_true, if_false, reduceIte, List.take_succ_cons,
      List.take_nil]
    norm_num [List.insertionSort, List.orderedInsert, scoreGe]
  rw [this] at h
  simp at h

/-- C1 amended: when graph expansion is active, the original candidates
    and the neighbor results are merged as a set of (id, score) pairs —
    deduplicated by the exact pair, not by id — truncated to k in set
    order before sorting, then sorted descending by score and truncated to
    k again; the returned list never repeats an (id, score) pair, though
    the same id can appear under two different scores. -/
theorem retrieve_pair_nodup (searchFn : Nat → List (String × ℚ))
    (registry : String → Option LineageNode)
    (neighborsFn : String → Nat → List String)
    (k : Nat) (filters : Option FilterConfig) (graph_depth : Nat)
    (h : 0 < graph_depth) :
    (retrieve searchFn registry neighborsFn k filters graph_depth).Nodup := by
  simp only [retrieve]
  rw [if_pos h]
  apply List.Nodup.sublist (List.take_sublist _ _)
  apply ((List.perm_insertionSort scoreGe _).nodup_iff).2
  exact List.Nodup.sublist (List.take_sublist _ _)
    (expandResults_nodup _ neighborsFn registry graph_depth)

theorem retrieve_pair_nodup_witness :
    (0 < 1) ∧ (retrieve cexSearch cexRegistry cexNeighbors 5 none 1).Nodup :=
  ⟨by decide, retrieve_pair_nodup cexSearch cexRegistry cexNeighbors 5 none 1 (by decide)⟩

/-- LineageEntry of schemas/audit.py. -/
structure LineageEntry where
  record_id : String
  score : ℚ
  dataset_version : String
  transform_chain : List String
deriving DecidableEq, Repr

/-- AnswerWithLineage of schemas/audit.py (metadata omitted: no check
    reads it). -/
structure AnswerWithLineage where
  question : String
  answer : String
  lineage : List LineageEntry
deriving DecidableEq, Repr

/-- Value of a digit string, most significant first. -/
def digitsVal (l : List Char) : Nat :=
  l.foldl (fun acc c => acc * 10 + (c.toNat - '0'.toNat)) 0

/-- The unsigned part of the plain-decimal fragment of Python float():
    digits with an optional fractional part, at least one digit overall.
    This is a partial model of the builtin: it agrees with float() exactly
    on ASCII strings that contain no exponent letter, no underscore, no
    whitespace and no inf/infinity/nan spelling — on those, float()
    accepts precisely the plain literals, with this value.  The staleness
    theorems take the parser as a parameter (float() is an external call,
    like the embedder or the vector store), so this definition is applied
    only at concrete strings of that fragment. -/
def parseDecimal? (l : List Char) : Option ℚ :=
  let intPart := l.takeWhile Char.isDigit
  let rest := l.dropWhile Char.isDigit
  match rest with
  | [] => if intPart.isEmpty then none else some (digitsVal intPart)
  | '.' :: frac =>
    if frac.all Char.isDigit && !(intPart.isEmpty && frac.isEmpty) then
      some ((digitsVal intPart : ℚ) + (digitsVal frac : ℚ) / ((10 : ℚ) ^ frac.length))
    else none
  | _ => none

/-- parseDecimal? with an optional sign; none models ValueError.  Same
    partiality scope as parseDecimal?: used only at concrete strings
    where it agrees with the builtin float(). -/
def pyFloat? (s : String) : Option ℚ :=
  match s.data with
  | '+' :: rest => parseDecimal? rest
  | '-' :: rest => (parseDecimal? rest).map (fun q => -q)
  | l => parseDecimal? l

/-- `s.replace("v", "")`: removes every occurrence of the letter v. -/
def replaceV (s : String) : String :=
  ⟨s.data.filter (fun c => c ≠ 'v')⟩

/-- Python max() over a list; the empty case is unreachable in
    check_staleness (the lineage is non-empty there). -/
def listMax : List ℚ → ℚ
  | [] => 0
  | x :: rest => rest.foldl max x

/-- The list comprehension `[float(v.replace("v", "")) for v in versions]`
    with ValueError propagation: none when any element fails to parse.
    The builtin float() is passed in as the parse oracle `float`. -/
def parseAll? (float : String → Option ℚ) (versions : List String) :
    Option (List ℚ) :=
  versions.mapM (fun v => float (replaceV v))

/-- check_staleness of audit/checks.py.  The builtin float() is an
    external call and enters as the parse oracle `float`: some q is a
    finite parse with exact rational value q (the file-wide convention
    that Python floats are ℚ; float values outside that convention —
    infinities and NaN — have no oracle, and IEEE rounding is absorbed by
    the convention), none is a ValueError.  `answer_versions` is a Python
    set, but only its maximum and whether any member fails to parse are
    used, so the version list itself is equivalent.  None and the empty
    string are both falsy for `if current_version:`. -/
def check_staleness (float : String → Option ℚ) (answer : AnswerWithLineage)
    (current_version : Option String) : String :=
  if answer.lineage.isEmpty then "warning"
  else
    match current_version with
    | some cv =>
      if cv = "" then "pass"
      else
        let answer_versions := answer.lineage.map (fun e => e.dataset_version)
        if cv ∈ answer_versions then "pass"
        else
          match float (replaceV cv), parseAll? float answer_versions with
          | some current_num, some answer_nums =>
            if 1 < current_num - listMax answer_nums then "fail"
            else if 0 < current_num - listMax answer_nums then "warning"
            else "pass"
          | _, _ => "pass"
    | none => "pass"

/-- The claim's reading of the version parse: "stripping a leading
    version-prefix letter" — remove one leading v only, following the
    spec's words (the code instead removes every v). -/
def stripLeadingV (s : String) : String :=
  match s.data with
  | 'v' :: rest => String.mk rest
  | _ => s

/-- A one-entry answer whose lineage carries version v1.0. -/
def cexAnswer : AnswerWithLineage :=
  { question := "q"
    answer := "a"
    lineage := [{ record_id := "r1"
                  score := 1/2
                  dataset_version := "v1.0"
                  transform_chain := [] }] }

theorem pyFloat_v10 : pyFloat? (replaceV "v1.0") = some 1 := by
  have h0 : pyFloat? (replaceV "v1.0") =
      some ((digitsVal ['1'] : ℚ) + (digitsVal ['0'] : ℚ) / ((10 : ℚ) ^ (1 : Nat))) := rfl
  rw [h0]
  have h1 : digitsVal ['1'] = 1 := rfl
  have h2 : digitsVal ['0'] = 0 := rfl
  rw [h1, h2]
  norm_num

theorem parseAll_v10 :
    parseAll? pyFloat? (cexAnswer.lineage.map (fun e => e.dataset_version)) =
      some [1] := by
  show (["v1.0"].mapM fun v => pyFloat? (replaceV v)) = some [1]
  rw [List.mapM_cons, List.mapM_nil, pyFloat_v10]
  rfl

/-- C9 counterexample: under the claim's leading-letter stripping, the
    current version "3v" is non-numeric, so the result should fall through
    to "pass"; the code's replace removes every v, parses 3.0, finds it
    more than 1.0 above the lineage maximum 1.0 and returns "fail".  The
    three strings the oracle meets here — "3" (3.0), "1.0" (1.0) and the
    unstripped "3v" (ValueError) — are plain ASCII decimals or plainly
    non-numeric, where pyFloat? agrees with the builtin float(). -/
theorem check_staleness_leading_strip_cex :
    pyFloat? (stripLeadingV "3v") = none ∧
    check_staleness pyFloat? cexAnswer (some "3v") = "fail" := by
  constructor
  · rfl
  · have hc : pyFloat? (replaceV "3v") = some 3 := rfl
    have hmax : listMax [1] = (1 : ℚ) := rfl
    have hall : parseAll? pyFloat? ["v1.0"] = some [1] := by
      show (["v1.0"].mapM fun v => pyFloat? (replaceV v)) = some [1]
      rw [List.mapM_cons, List.mapM_nil, pyFloat_v10]
      rfl
    simp only [check_staleness, cexAnswer, List.isEmpty_cons, List.map_cons,
      List.map_nil, String.reduceEq, if_false, List.mem_cons, List.not_mem_nil,
      or_false, hc, hall, hmax, reduceIte]
    norm_num

/-- C9 amended: as the claim says, except that the versions are parsed by
    float() after removing every occurrence of the letter v (str.replace,
    not only a leading prefix) and a supplied current version must be
    non-empty; float() enters as an arbitrary parse oracle (some = finite
    parse to an exact rational, none = ValueError), so every finite
    behavior of the builtin — exponents, whitespace, underscores included
    — is an instance: warning on empty lineage; else with a truthy unused
    current version, fail when its parsed number exceeds the lineage
    maximum by more than 1.0, warning when it exceeds by up to 1.0, pass
    when any version fails to parse and in every remaining case. -/
theorem check_staleness_branches (float : String → Option ℚ)
    (answer : AnswerWithLineage) (cv : Option String) :
    (answer.lineage = [] → check_staleness float answer cv = "warning") ∧
    (answer.lineage ≠ [] → (cv = none ∨ cv = some "") →
      check_staleness float answer cv = "pass") ∧
    (∀ v, answer.lineage ≠ [] → cv = some v → v ≠ "" →
      v ∈ answer.lineage.map (fun e => e.dataset_version) →
      check_staleness float answer cv = "pass") ∧
    (∀ v, answer.lineage ≠ [] → cv = some v → v ≠ "" →
      v ∉ answer.lineage.map (fun e => e.dataset_version) →
      (float (replaceV v) = none ∨
        parseAll? float (answer.lineage.map (fun e => e.dataset_version)) = none) →
      check_staleness float answer cv = "pass") ∧
    (∀ v cn nums, answer.lineage ≠ [] → cv = some v → v ≠ "" →
      v ∉ answer.lineage.map (fun e => e.dataset_version) →
      float (replaceV v) = some cn →
      parseAll? float (answer.lineage.map (fun e => e.dataset_version)) = some nums →
      ((1 < cn - listMax nums → check_staleness float answer cv = "fail") ∧
       (0 < cn - listMax nums → cn - listMax nums ≤ 1 →
         check_staleness float answer cv = "warning") ∧
       (cn - listMax nums ≤ 0 → check_staleness float answer cv = "pass"))) := by
  have hne : answer.lineage ≠ [] → answer.lineage.isEmpty = false := by
    intro h
    cases hl : answer.lineage with
    | nil => exact absurd hl h
    | cons a l => rfl
  refine ⟨?_, ?_, ?_, ?_, ?_⟩
  · intro h
    simp [check_staleness, h]
  · intro h hcv
    rcases hcv with rfl | rfl
    · simp [check_staleness, hne h]
    · simp [check_staleness, hne h]
  · intro v h hcv hv hmem
    subst hcv
    simp [check_staleness, hne h, hv, hmem]
  · intro v h hcv hv hmem hparse
    subst hcv
    rcases hparse with hp | hp
    · simp [check_staleness, hne h, hv, hmem, hp]
    · cases hcp : float (replaceV v) with
      | none => simp [check_staleness, hne h, hv, hmem, hp, hcp]
      | some cn => simp [check_staleness, hne h, hv, hmem, hp, hcp]
  · intro v cn nums h hcv hv hmem hpc hpm
    subst hcv
    refine ⟨?_, ?_, ?_⟩
    · intro hgt
      simp [check_staleness, hne h, hv, hmem, hpc, hpm, hgt]
    · intro hgt hle
      have hngt : ¬ (1 < cn - listMax nums) := not_lt.2 hle
      simp [check_staleness, hne h, hv, hmem, hpc, hpm, hngt, hgt]
    · intro hle
      have h1 : ¬ (1 < cn - listMax nums) :=
        not_lt.2 (le_trans hle (by norm_num))
      have h2 : ¬ (0 < cn - listMax nums) := not_lt.2 hle
      simp [check_staleness, hne h, hv, hmem, hpc, hpm, h1, h2]

theorem pyFloat_v30 : pyFloat? (replaceV "v3.0") = some 3 := by
  have h0 : pyFloat? (replaceV "v3.0") =
      some ((digitsVal ['3'] : ℚ) + (digitsVal ['0'] : ℚ) / ((10 : ℚ) ^ (1 : Nat))) := rfl
  rw [h0]
  have h1 : digitsVal ['3'] = 3 := rfl
  have h2 : digitsVal ['0'] = 0 := rfl
  rw [h1, h2]
  norm_num

/-- A parse oracle extending the plain-decimal model with the exponent
    literal "1e1", which the builtin float() parses as 10.0. -/
def floatOracle1e1 : String → Option ℚ :=
  fun s => if s = "1e1" then some 10 else pyFloat? s

theorem check_staleness_branches_witness :
    check_staleness pyFloat? cexAnswer (some "v3.0") = "fail" ∧
    check_staleness pyFloat? cexAnswer (some "v1.0") = "pass" ∧
    check_staleness floatOracle1e1 cexAnswer (some "1e1") = "fail" := by
  have h := check_staleness_branches pyFloat? cexAnswer (some "v3.0")
  have h' := check_staleness_branches pyFloat? cexAnswer (some "v1.0")
  have he := check_staleness_branches floatOracle1e1 cexAnswer (some "1e1")
  refine ⟨?_, ?_, ?_⟩
  · refine (h.2.2.2.2 "v3.0" 3 [1] (by simp [cexAnswer]) rfl (by decide)
      (by simp [cexAnswer]) pyFloat_v30 parseAll_v10).1 ?_
    have hmax : listMax [1] = (1 : ℚ) := rfl
    rw [hmax]
    norm_num
  · exact h'.2.2.1 "v1.0" (by simp [cexAnswer]) rfl (by decide)
      (by simp [cexAnswer])
  · have h1e1 : floatOracle1e1 (replaceV "1e1") = some 10 := rfl
    have hall : parseAll? floatOracle1e1
        (cexAnswer.lineage.map (fun e => e.dataset_version)) = some [1] := by
      show (["v1.0"].mapM fun v => floatOracle1e1 (replaceV v)) = some [1]
      have hv10 : floatOracle1e1 (replaceV "v1.0") = some 1 := by
        show (if "1.0" = "1e1" then some 10 else pyFloat? "1.0") = some 1
        rw [if_neg (by decide)]
        exact pyFloat_v10
      rw [List.mapM_cons, List.mapM_nil, hv10]
      rfl
    refine (he.2.2.2.2 "1e1" 10 [1] (by simp [cexAnswer]) rfl (by decide)
      (by simp [cexAnswer]) h1e1 hall).1 ?_
    have hmax : listMax [1] = (1 : ℚ) := rfl
    rw [hmax]
    norm_num

end RagLineage
